import Mathlib

/-!
Shallow embedding of the scrabble-helper engine
(`word_scrabble.py`, `word_sets.py`) and proofs about it.

Words and tile strings are modelled as `List Char`; the word set
(a Python `set` of strings) is modelled as a `List (List Char)` whose
order stands for the unspecified iteration order of the set.  All inputs
used in concrete counterexamples are chosen so that the facts proved do
not depend on that iteration order.
-/

namespace Scrabble

abbrev Word := List Char

/-- Scrabble letter point values (`WordScrabbleCalculator.letter_values`);
the blank `' '` scores 0.  Characters outside `a`-`z` and `' '` raise
`KeyError` in the source; they are outside the validated precondition and
mapped to 0 here. -/
def letterValues : Char → Nat
  | 'a' => 1 | 'b' => 3 | 'c' => 3 | 'd' => 2 | 'e' => 1
  | 'f' => 4 | 'g' => 2 | 'h' => 4 | 'i' => 1 | 'j' => 8
  | 'k' => 5 | 'l' => 1 | 'm' => 3 | 'n' => 1 | 'o' => 1
  | 'p' => 3 | 'q' => 10 | 'r' => 1 | 's' => 1 | 't' => 1 | 'u' => 1
  | 'v' => 4 | 'w' => 4 | 'x' => 8 | 'y' => 4 | 'z' => 10
  | _ => 0

/-- Python 2 `str.lower` on a single byte: `A`-`Z` map 32 code points up,
everything else is unchanged. -/
def pyLowerChar (c : Char) : Char :=
  if 'A' ≤ c ∧ c ≤ 'Z' then Char.ofNat (c.toNat + 32) else c

/-- Embeds `str.lower` on a whole word. -/
def lowerWord (w : Word) : Word := w.map pyLowerChar

/-- Embeds `WordSet.__getitem__` on a string key: `word.lower() in self.word_set`. -/
def memberWS (ws : List Word) (w : Word) : Bool := decide (lowerWord w ∈ ws)

/-- Embeds `string.ascii_lowercase`. -/
def alphabet : List Char := "abcdefghijklmnopqrstuvwxyz".toList

/-- Python nested `for`-loop comprehension: concatenate `f x` over `l`. -/
def concatMap (f : α → List β) : List α → List β
  | [] => []
  | x :: xs => f x ++ concatMap f xs

/-- Embeds `word.translate(None, ' ')`: delete all blanks. -/
def stripBlanks (w : Word) : Word := w.filter (· ≠ ' ')

/-- All ways of inserting `x` at some position of a list. -/
def insertionsOf (x : α) : List α → List (List α)
  | [] => [[x]]
  | y :: ys => (x :: y :: ys) :: (insertionsOf x ys).map (y :: ·)

/-- Embeds `itertools.permutations(word)`: every rearrangement of the letters
(by position, so repeated letters yield repeated entries).  The source
enumerates them in a specific order; only membership matters to every
caller, so we enumerate by repeated insertion. -/
def permsOf : List α → List (List α)
  | [] => [[]]
  | x :: xs => concatMap (insertionsOf x) (permsOf xs)

/-- Embeds `WordScrabbleCalculator._get_anagrams`: all permutations of the
letters, keeping the ones recognised by the word set. -/
def getAnagrams (ws : List Word) (w : Word) : List Word :=
  (permsOf w).filter (fun p => memberWS ws p)

/-- The candidate full letter strings of `get_possible_words`: if there
are blanks, the stripped word extended by every combination
(`itertools.combinations`, i.e. every sorted selection without
replacement) of that many letters of the alphabet; otherwise the word
itself. -/
def inputWords (tiles : Word) : List Word :=
  let b := tiles.count ' '
  if b = 0 then [tiles]
  else (List.sublistsLen b alphabet).map (fun ls => stripBlanks tiles ++ ls)

/-- Inner loops of `get_possible_words` for one candidate string: for
every subset size `i` in `xrange(2, len(word)+1)` and every
position-combination of `i` letters, collect the recognised anagrams. -/
def candidatesOf (ws : List Word) (w : Word) : List Word :=
  concatMap (fun i => concatMap (fun combo => getAnagrams ws combo) (List.sublistsLen i w))
    (List.range' 2 (w.length - 1))

/-- Embeds `WordScrabbleCalculator.get_possible_words`: all makeable words,
duplicates removed (`list(set(...))`; the set order is unspecified, we
keep first occurrences). -/
def get_possible_words (ws : List Word) (tiles : Word) : List Word :=
  (concatMap (fun w => candidatesOf ws w) (inputWords tiles)).dedup

/-- Embeds `(Counter(word) & Counter(available)).elements()`: the multiset
intersection.  `Counter.elements` order is unspecified in Python 2; we
use first-occurrence order of `w`, which affects no computed score. -/
def counterAnd (w a : Word) : Word :=
  concatMap (fun c => List.replicate (min (w.count c) (a.count c)) c) w.dedup

/-- Embeds `(Counter(w) - Counter(a)).elements()`: the (clamped) multiset
difference, in first-occurrence order of `w`. -/
def counterSub (w a : Word) : Word :=
  concatMap (fun c => List.replicate (w.count c - a.count c) c) w.dedup

/-- Embeds `WordScrabbleCalculator._get_score`.  Note the Python truthiness
test `if available_letters:`: an empty available-letters string behaves
exactly like no available letters at all. -/
def get_score (w : Word) (avail : Option Word) : Nat :=
  match avail with
  | none => (w.map letterValues).sum
  | some a =>
      if a = [] then (w.map letterValues).sum
      else ((counterAnd w a).map letterValues).sum

/-- Stable insertion used by `sortedBy`; `r x y = true` means `x` may be
placed before `y`. -/
def insertSorted (r : α → α → Bool) (x : α) : List α → List α
  | [] => [x]
  | y :: ys => if r x y then x :: y :: ys else y :: insertSorted r x ys

/-- Stable sort (insertion sort).  With `r x y := key y ≤ key x` this is
exactly the stable Python `sorted(key=key, reverse=True)`, and with
`r x y := key x ≤ key y` the stable Python `sorted(key=key)`. -/
def sortedBy (r : α → α → Bool) : List α → List α
  | [] => []
  | x :: xs => insertSorted r x (sortedBy r xs)

/-- Embeds `WordScrabbleCalculator.get_suggestions`: possible words sorted by
descending score against the held tiles, truncated to `n`. -/
def get_suggestions (ws : List Word) (tiles : Word) (n : Nat) : List Word :=
  (sortedBy (fun x y => decide (get_score y (some tiles) ≤ get_score x (some tiles)))
    (get_possible_words ws tiles)).take n

/-- Python slice `l[:j]` for a possibly negative `j`. -/
def pyTakeI (j : Int) (l : List α) : List α :=
  l.take (if j < 0 then ((l.length : Int) + j).toNat else j.toNat)

/-- Python slice `l[i:]` for a possibly negative `i`. -/
def pyDropI (i : Int) (l : List α) : List α :=
  l.drop (if i < 0 then ((l.length : Int) + i).toNat else i.toNat)

/-- `WordScrabbleHelper._get_letters_needed`:
`(Counter(suggestion) - Counter(self.word)).elements()`. -/
def lettersNeeded (tiles sugg : Word) : Word := counterSub sugg tiles

/-- Embeds the local `values` of `_get_suggestion_score`: the needed letters, stably
sorted by ascending Scrabble value. -/
def suggValues (tiles sugg : Word) : Word :=
  sortedBy (fun x y => decide (letterValues x ≤ letterValues y)) (lettersNeeded tiles sugg)

/-- Embeds `number_of_letters_needed` of `_get_suggestion_score`, a Python
integer that may be zero or negative when blanks outnumber the letters
still needed. -/
def suggK (tiles sugg : Word) : Int :=
  ((lettersNeeded tiles sugg).length : Int) - (tiles.count ' ' : Int)

/-- Embeds `WordScrabbleHelper._get_suggestion_score`: a one-element list
(no blanks held) or a `[lowScore, highScore]` list (blanks held), with
`least_valuable = values[:k]` and `most_valuable = values[-k:]`
following Python slicing exactly (`pyTakeI`/`pyDropI`). -/
def suggScore (tiles sugg : Word) : List Int :=
  if tiles.count ' ' = 0 then [((sugg.map letterValues).sum : Int)]
  else
    [((sugg.map letterValues).sum : Int) -
        (((pyDropI (-(suggK tiles sugg)) (suggValues tiles sugg)).map letterValues).sum : Int),
      ((sugg.map letterValues).sum : Int) -
        (((pyTakeI (suggK tiles sugg) (suggValues tiles sugg)).map letterValues).sum : Int)]

/-- Embeds `score[0]` of a suggestion-score tuple. -/
def lowOf (s : List Int) : Int := s.headD 0

/-- Embeds `score[-1]` of a suggestion-score tuple. -/
def highOf (s : List Int) : Int := s.getLastD 0

/-! ### `word_sets.py`: `WordSetHelper`, the fuzzy matcher -/

/-- Byte-string `<` of Python 2: lexicographic on character codes. -/
def lexLt : Word → Word → Bool
  | [], [] => false
  | [], _ :: _ => true
  | _ :: _, [] => false
  | a :: as, b :: bs => if a < b then true else if b < a then false else lexLt as bs

/-- Embeds `word[:i] + word[i+1] + word[i] + word[i+2:]` (adjacent swap at `i`).
The indices are in range for every `i` the source uses. -/
def swapAt (w : Word) (i : Nat) : Word :=
  w.take i ++ [w.getD (i + 1) ' ', w.getD i ' '] ++ w.drop (i + 2)

/-- Embeds `WordSetHelper._find_words_by_swapping`: swap each adjacent pair
(`xrange(len(word) - 1)` positions) and keep recognised results. -/
def find_words_by_swapping (ws : List Word) (w : Word) : List Word :=
  ((List.range (w.length - 1)).map (fun i => swapAt w i)).filter (fun v => memberWS ws v)

/-- Embeds `WordSetHelper._find_words_by_removing`: delete one letter at the
positions of `xrange(len(word) - 1)` and keep recognised results.
(The source really iterates `len(word) - 1` positions, so the final
letter is never deleted.) -/
def find_words_by_removing (ws : List Word) (w : Word) : List Word :=
  ((List.range (w.length - 1)).map (fun i => w.take i ++ w.drop (i + 1))).filter
    (fun v => memberWS ws v)

/-- Does `cand` match one of the wildcard patterns
`word[:i] + [a-z] + word[i:]` for `i` in `xrange(len(word)+1)`
(the Add patterns)? -/
def addPatternMatch (w cand : Word) : Bool :=
  (List.range (w.length + 1)).any (fun i =>
    alphabet.any (fun c => cand == w.take i ++ c :: w.drop i))

/-- Does `cand` match one of the wildcard patterns
`word[:i] + [a-z] + word[i+1:]` for `i` in `xrange(len(word)+1)`
(the Substitute patterns; at `i = len(word)` this appends a letter)? -/
def substPatternMatch (w cand : Word) : Bool :=
  (List.range (w.length + 1)).any (fun i =>
    alphabet.any (fun c => cand == w.take i ++ c :: w.drop (i + 1)))

/-- Embeds `re.findall(" (alt1|...|altk) ", " " + " ".join(word_set) + " ")` of
`_find_words_by_regex_wildcard_match`.  A match is always one whole
space-delimited word, and matches cannot overlap: a captured word
consumes its trailing space, so the word immediately after a captured
one is skipped (its leading space is gone). -/
def regexScan (matchf : Word → Bool) : List Word → List Word :=
  go true
where
  go : Bool → List Word → List Word
    | _, [] => []
    | canMatch, w :: rest =>
        if canMatch && matchf w then w :: go false rest else go true rest

/-- Embeds `WordSetHelper._find_words_by_adding`. -/
def find_words_by_adding (ws : List Word) (w : Word) : List Word :=
  regexScan (addPatternMatch w) ws

/-- Embeds `WordSetHelper._find_words_by_substituting`. -/
def find_words_by_substituting (ws : List Word) (w : Word) : List Word :=
  regexScan (substPatternMatch w) ws

/-- Embeds `list.index` (first index; the call in the source never misses for the
lowercase inputs the engine feeds it). -/
def pyIndex (l : List Word) (w : Word) : Nat := l.findIdx (fun v => v == w)

/-- Embeds `WordSetHelper._find_closest_words_by_searching`: sort the word set
plus the input word, and return the neighbours of the first input
occurrence, excluding the input itself. -/
def find_closest_words_by_searching (ws : List Word) (w : Word) : List Word :=
  let wordList := sortedBy (fun x y => !(lexLt y x)) (ws ++ [w])
  let idx := pyIndex wordList (lowerWord w)
  ((wordList.drop (idx - 1)).take (idx + 2 - (idx - 1))).filter (fun v => v ≠ w)

/-- The search cascade of `WordSetHelper.search_order`, concatenated in
priority order (each step list is fully computed in the source too; the
early exit only stops consuming). -/
def cascadeCandidates (ws : List Word) (w : Word) : List Word :=
  find_words_by_swapping ws w ++ find_words_by_removing ws w ++
    find_words_by_adding ws w ++ find_words_by_substituting ws w ++
      find_closest_words_by_searching ws w

/-- The accumulation loop of `get_alternative_words`: keep candidates
that are new and differ from the input, and stop as soon as the cap is
reached (the cap test runs on every iteration, after the append). -/
def accumAlts (input : Word) (cap : Nat) (acc : List Word) : List Word → List Word
  | [] => acc
  | w :: rest =>
      let acc2 := if w ∉ acc ∧ w ≠ input then acc ++ [w] else acc
      if cap ≤ acc2.length then acc2 else accumAlts input cap acc2 rest

/-- Embeds `number_of_words or len(self.word_set)`: the Python `or` makes both
`None` and `0` mean "as many as the word set holds". -/
def altCap (ws : List Word) (numberOfWords : Option Nat) : Nat :=
  match numberOfWords with
  | none => ws.length
  | some k => if k = 0 then ws.length else k

/-- Embeds `WordSetHelper.get_alternative_words`.  Here `alternatives or None`
turns an empty result list into `None` (modelled as `none`). -/
def get_alternative_words (ws : List Word) (w : Word) (numberOfWords : Option Nat) :
    Option (List Word) :=
  match accumAlts w (altCap ws numberOfWords) [] (cascadeCandidates ws w) with
  | [] => none
  | l => some l

/-! ### `word_scrabble.py`: `WordScrabbleHelper` suggestions -/

/-- Python errors the embedding distinguishes. -/
inductive PyErr
  | typeError
  | attributeError
  deriving DecidableEq

instance {ε α : Type} [DecidableEq ε] [DecidableEq α] : DecidableEq (Except ε α) :=
  fun a b =>
    match a, b with
    | .error e, .error f =>
        if h : e = f then .isTrue (congrArg Except.error h)
        else .isFalse (fun hh => h (Except.error.inj hh))
    | .ok x, .ok y =>
        if h : x = y then .isTrue (congrArg Except.ok h)
        else .isFalse (fun hh => h (Except.ok.inj hh))
    | .error _, .ok _ => .isFalse (fun hh => Except.noConfusion hh)
    | .ok _, .error _ => .isFalse (fun hh => Except.noConfusion hh)

/-- The lazy generator chain of `get_alternative_suggestions` consumed
through `limiter(..., budget)`: pull pooled alternatives word by word
until the budget is exhausted.  Iterating over an absent
(`None`) alternatives result raises `TypeError` — but only if that word
is reached before the budget runs out. -/
def poolBudget (ws : List Word) (budget : Nat) : List Word → Except PyErr (List Word)
  | [] => .ok []
  | w :: rest =>
      if budget = 0 then .ok []
      else
        match get_alternative_words ws w none with
        | none => .error .typeError
        | some alts =>
            if budget ≤ alts.length then .ok (alts.take budget)
            else
              match poolBudget ws (budget - alts.length) rest with
              | .ok more => .ok (alts ++ more)
              | .error e => .error e

/-- Embeds `suggestion_valid` of `get_alternative_suggestions`: not already
makeable, and of length in `[2, 7]`. -/
def suggestionValid (possible : List Word) (x : Word) : Bool :=
  decide (x ∉ possible) && decide (1 < x.length) && decide (x.length ≤ 7)

/-- The sort key order of `get_alternative_suggestions`: descending by
the highest possible score `_get_suggestion_score(x)[-1]`. -/
def bySuggestionScore (tiles : Word) (x y : Word) : Bool :=
  decide (highOf (suggScore tiles y) ≤ highOf (suggScore tiles x))

/-- Embeds `WordScrabbleHelper.get_alternative_suggestions`: pool the
alternatives of every makeable word through `limiter(..., 2*n)`, keep
the valid ones, sort by descending high score, return the first `n`. -/
def get_alternative_suggestions (ws : List Word) (tiles : Word) (n : Nat) :
    Except PyErr (List Word) :=
  match poolBudget ws (2 * n) (get_possible_words ws tiles) with
  | .error e => .error e
  | .ok pool =>
      .ok ((sortedBy (bySuggestionScore tiles)
        (pool.filter (suggestionValid (get_possible_words ws tiles)))).take n)

/-! ### Spec-side definitions (for refinement comparisons only) -/

/-- Modelled from the claim wording (C2): pool the alternatives of
EVERY makeable word in full, keep every pooled alternative that is not
makeable and has length in `[2,7]`, sort ALL of them by descending high
score, and return the first `n`. -/
def claimSuggest (ws : List Word) (tiles : Word) (n : Nat) : List Word :=
  let possible := get_possible_words ws tiles
  let pool := concatMap (fun w => (get_alternative_words ws w none).getD []) possible
  (sortedBy (bySuggestionScore tiles) (pool.filter (suggestionValid possible))).take n

/-- Modelled from the claim wording (C4): the sum of letter point values
over the multiset intersection of the letters of the word and the
available letters. -/
def specInterScore (w a : Word) : Nat :=
  (((w : Multiset Char) ∩ (a : Multiset Char)).map letterValues).sum

/-! ### Entry validation and `WordSet.__getitem__` -/

/-- Embeds `string.punctuation` of Python 2: ASCII 33-47, 58-64, 91-96, 123-126. -/
def pyPunctuation : List Char :=
  (List.range' 33 15 ++ List.range' 58 7 ++ List.range' 91 6 ++ List.range' 123 4).map
    Char.ofNat

/-- Embeds `string.digits`. -/
def pyDigits : List Char := "0123456789".toList

/-- A Python value, as far as the validation and lookup boundaries care:
a byte string or one of the built-in non-string values. -/
inductive PyVal
  | str (w : Word)
  | int (n : Int)
  | list (l : List Int)
  | noneV
  | boolV (b : Bool)
  deriving DecidableEq

/-- Embeds `x.lower()` on a `PyVal`: strings lowercase; every built-in
non-string value has no `lower` attribute and raises `AttributeError`. -/
def pyLowerAttr : PyVal → Except PyErr Word
  | .str w => .ok (lowerWord w)
  | _ => .error .attributeError

/-- Embeds `WordSet.__getitem__`: `word.lower() in self.word_set`, with
`AttributeError` caught and converted to `False`. -/
def wordsetGetitem (ws : List Word) (v : PyVal) : Bool :=
  match pyLowerAttr v with
  | .ok w => decide (w ∈ ws)
  | .error .attributeError => false
  | .error _ => false

/-- The validation of `WordScrabbleCalculator.__init__`: the input must
be a string, must contain no punctuation or digit, and must be at most
7 characters long; everything else is accepted. -/
def initAccepts : PyVal → Bool
  | .str w => !(w.any (fun c => decide (c ∈ pyPunctuation) || decide (c ∈ pyDigits)))
      && decide (w.length ≤ 7)
  | _ => false

end Scrabble

namespace Scrabble

/-! ### Generic lemmas about the loop combinators -/

theorem mem_concatMap {f : α → List β} {l : List α} {b : β} :
    b ∈ concatMap f l ↔ ∃ a, a ∈ l ∧ b ∈ f a := by
  induction l with
  | nil => simp [concatMap]
  | cons x xs ih =>
      simp only [concatMap, List.mem_append, ih, List.mem_cons]
      constructor
      · rintro (h | ⟨a, ha, hb⟩)
        · exact ⟨x, Or.inl rfl, h⟩
        · exact ⟨a, Or.inr ha, hb⟩
      · rintro ⟨a, (rfl | ha), hb⟩
        · exact Or.inl hb
        · exact Or.inr ⟨a, ha, hb⟩

theorem mem_insertionsOf {x : α} : ∀ {l w : List α},
    w ∈ insertionsOf x l ↔ ∃ l₁ l₂, l₁ ++ l₂ = l ∧ w = l₁ ++ x :: l₂ := by
  intro l
  induction l with
  | nil =>
      intro w
      simp only [insertionsOf, List.mem_singleton]
      constructor
      · rintro rfl; exact ⟨[], [], rfl, rfl⟩
      · rintro ⟨l₁, l₂, h, rfl⟩
        have h1 : l₁ = [] := by cases l₁ <;> simp_all
        have h2 : l₂ = [] := by cases l₁ <;> simp_all
        simp [h1, h2]
  | cons y ys ih =>
      intro w
      simp only [insertionsOf, List.mem_cons, List.mem_map]
      constructor
      · rintro (rfl | ⟨v, hv, rfl⟩)
        · exact ⟨[], y :: ys, rfl, rfl⟩
        · obtain ⟨l₁, l₂, hsplit, rfl⟩ := ih.mp hv
          exact ⟨y :: l₁, l₂, by rw [List.cons_append, hsplit], rfl⟩
      · rintro ⟨l₁, l₂, hsplit, rfl⟩
        cases l₁ with
        | nil =>
            left
            simp only [List.nil_append] at hsplit ⊢
            rw [hsplit]
        | cons z l₁ =>
            right
            simp only [List.cons_append, List.cons.injEq] at hsplit
            obtain ⟨rfl, hsplit⟩ := hsplit
            exact ⟨l₁ ++ x :: l₂, ih.mpr ⟨l₁, l₂, hsplit, rfl⟩, rfl⟩

theorem mem_permsOf : ∀ {l w : List α}, w ∈ permsOf l ↔ w.Perm l := by
  intro l
  induction l with
  | nil =>
      intro w
      simp [permsOf, List.perm_nil]
  | cons x xs ih =>
      intro w
      simp only [permsOf, mem_concatMap]
      constructor
      · rintro ⟨p, hp, hw⟩
        obtain ⟨l₁, l₂, rfl, rfl⟩ := mem_insertionsOf.mp hw
        exact List.perm_middle.trans ((ih.mp hp).cons x)
      · intro hperm
        have hx : x ∈ w := hperm.mem_iff.mpr (List.mem_cons_self x xs)
        obtain ⟨s, t, rfl⟩ := List.append_of_mem hx
        have hst : (s ++ t).Perm xs :=
          (List.perm_middle.symm.trans hperm).cons_inv
        exact ⟨s ++ t, ih.mpr hst, mem_insertionsOf.mpr ⟨s, t, rfl, rfl⟩⟩

theorem mem_range'_iff {s n m : Nat} : m ∈ List.range' s n ↔ s ≤ m ∧ m < s + n := by
  induction n generalizing s with
  | zero => simp [List.range']
  | succ n ih =>
      simp only [List.range', List.mem_cons, ih]
      omega

/-! ### Lowercasing -/

theorem pyLowerChar_id {c : Char} (h1 : 'a' ≤ c) (h2 : c ≤ 'z') : pyLowerChar c = c := by
  unfold pyLowerChar
  rw [if_neg]
  rintro ⟨-, hZ⟩
  exact absurd (le_trans h1 hZ) (by decide)

theorem lowerWord_id {w : Word} (h : ∀ c ∈ w, 'a' ≤ c ∧ c ≤ 'z') : lowerWord w = w := by
  unfold lowerWord
  rw [List.map_congr_left (fun c hc => pyLowerChar_id (h c hc).1 (h c hc).2)]
  simp

/-! ### C1: `formWords` with no blanks -/

theorem mem_gpw_noblank {ws : List Word} {tiles : Word}
    (hb : tiles.count ' ' = 0)
    (hlow : ∀ c ∈ tiles, 'a' ≤ c ∧ c ≤ 'z') (w : Word) :
    w ∈ get_possible_words ws tiles ↔ w ∈ ws ∧ 2 ≤ w.length ∧ w.Subperm tiles := by
  have hiw : inputWords tiles = [tiles] := by
    simp [inputWords, hb]
  rw [get_possible_words, hiw, List.mem_dedup]
  simp only [concatMap, List.append_nil, candidatesOf, mem_concatMap, mem_range'_iff,
    getAnagrams, List.mem_filter, mem_permsOf, List.mem_sublistsLen]
  constructor
  · rintro ⟨i, ⟨h2i, hiub⟩, combo, ⟨hsub, hclen⟩, hperm, hmem⟩
    have hchars : ∀ c ∈ w, 'a' ≤ c ∧ c ≤ 'z' := fun c hc =>
      hlow c (hsub.subset (hperm.mem_iff.mp hc))
    have hlower : lowerWord w = w := lowerWord_id hchars
    have hmem' : w ∈ ws := by
      have := of_decide_eq_true hmem
      rwa [hlower] at this
    refine ⟨hmem', ?_, combo, hperm.symm, hsub⟩
    rw [hperm.length_eq, hclen]
    exact h2i
  · rintro ⟨hwws, h2w, combo, hcw, hsub⟩
    have hchars : ∀ c ∈ w, 'a' ≤ c ∧ c ≤ 'z' := fun c hc =>
      hlow c (hsub.subset (hcw.mem_iff.mpr hc))
    have hlen : combo.length = w.length := hcw.length_eq
    have hle : w.length ≤ tiles.length := hlen ▸ hsub.length_le
    refine ⟨w.length, ⟨h2w, by omega⟩, combo, ⟨hsub, hlen⟩, hcw.symm, ?_⟩
    rw [memberWS, lowerWord_id hchars]
    exact decide_eq_true hwws

/-- C1: for every valid tile string with no blanks (length at most 7,
lowercase letters only) and every dictionary of lowercase words,
`get_possible_words` returns exactly the dictionary words of length at
least 2 that are letter-permutations of a sub-multiset of the tiles
(`Subperm`), with no duplicates in the result. -/
theorem C1_formWords_noblank_exact (ws : List Word) (tiles : Word)
    (hb : tiles.count ' ' = 0)
    (hlow : ∀ c ∈ tiles, 'a' ≤ c ∧ c ≤ 'z')
    (hlen : tiles.length ≤ 7)
    (hws : ∀ w ∈ ws, ∀ c ∈ w, 'a' ≤ c ∧ c ≤ 'z') :
    (∀ w, w ∈ get_possible_words ws tiles ↔
      w ∈ ws ∧ 2 ≤ w.length ∧ w.Subperm tiles) ∧
    (get_possible_words ws tiles).Nodup :=
  ⟨fun w => mem_gpw_noblank hb hlow w, List.nodup_dedup _⟩

theorem C1_formWords_noblank_exact_witness :
    (("dog".toList.count ' ' = 0) ∧ (∀ c ∈ "dog".toList, 'a' ≤ c ∧ c ≤ 'z') ∧
      ("dog".toList.length ≤ 7) ∧
      (∀ w ∈ ["dog".toList, "shoe".toList], ∀ c ∈ w, 'a' ≤ c ∧ c ≤ 'z')) ∧
    ((∀ w, w ∈ get_possible_words ["dog".toList, "shoe".toList] "dog".toList ↔
        w ∈ ["dog".toList, "shoe".toList] ∧ 2 ≤ w.length ∧ w.Subperm "dog".toList) ∧
      (get_possible_words ["dog".toList, "shoe".toList] "dog".toList).Nodup) :=
  ⟨⟨by decide, by decide, by decide, by decide⟩,
    C1_formWords_noblank_exact ["dog".toList, "shoe".toList] "dog".toList
      (by decide) (by decide) (by decide) (by decide)⟩

/-! ### Stable sorting lemmas -/

theorem mem_insertSorted {r : α → α → Bool} {x a : α} :
    ∀ {l : List α}, a ∈ insertSorted r x l ↔ a = x ∨ a ∈ l := by
  intro l
  induction l with
  | nil => simp [insertSorted]
  | cons y ys ih =>
      unfold insertSorted
      by_cases h : r x y
      · simp [h]
      · simp only [if_neg h, List.mem_cons, ih]
        tauto

theorem perm_insertSorted (r : α → α → Bool) (x : α) :
    ∀ (l : List α), (insertSorted r x l).Perm (x :: l) := by
  intro l
  induction l with
  | nil => simp [insertSorted]
  | cons y ys ih =>
      unfold insertSorted
      by_cases h : r x y
      · rw [if_pos h]
      · rw [if_neg h]
        exact (ih.cons y).trans (List.Perm.swap x y ys)

theorem perm_sortedBy (r : α → α → Bool) : ∀ (l : List α), (sortedBy r l).Perm l := by
  intro l
  induction l with
  | nil => simp [sortedBy]
  | cons x xs ih =>
      exact (perm_insertSorted r x (sortedBy r xs)).trans (ih.cons x)

theorem pairwise_insertSorted {r : α → α → Bool}
    (htot : ∀ a b, r a b = true ∨ r b a = true)
    (htrans : ∀ a b c, r a b = true → r b c = true → r a c = true)
    {x : α} {l : List α} (hl : l.Pairwise (fun a b => r a b = true)) :
    (insertSorted r x l).Pairwise (fun a b => r a b = true) := by
  induction l with
  | nil => simp [insertSorted]
  | cons y ys ih =>
      obtain ⟨hy, hys⟩ := List.pairwise_cons.mp hl
      unfold insertSorted
      by_cases hxy : r x y
      · rw [if_pos hxy]
        refine List.pairwise_cons.mpr ⟨?_, hl⟩
        intro b hb
        rcases List.mem_cons.mp hb with rfl | hb'
        · exact hxy
        · exact htrans x y b hxy (hy b hb')
      · rw [if_neg hxy]
        refine List.pairwise_cons.mpr ⟨?_, ih hys⟩
        intro b hb
        rcases mem_insertSorted.mp hb with hbx | hb'
        · rw [hbx]
          rcases htot x y with h | h
          · exact absurd h hxy
          · exact h
        · exact hy b hb'

theorem pairwise_sortedBy {r : α → α → Bool}
    (htot : ∀ a b, r a b = true ∨ r b a = true)
    (htrans : ∀ a b c, r a b = true → r b c = true → r a c = true) :
    ∀ (l : List α), (sortedBy r l).Pairwise (fun a b => r a b = true) := by
  intro l
  induction l with
  | nil => simp [sortedBy]
  | cons x xs ih => exact pairwise_insertSorted htot htrans ih

/-! ### C3: `topSuggestions` -/

/-- C3: for every tile string and every `n`, `get_suggestions` returns
exactly `get_possible_words` stably sorted in descending order of
`score(word, tiles)`, truncated to the first `n` entries: there is a
permutation `l` of the possible words, pairwise sorted by descending
score, with the result equal to `l.take n`. -/
theorem C3_topSuggestions_sorted_take (ws : List Word) (tiles : Word) (n : Nat) :
    ∃ l : List Word, l.Perm (get_possible_words ws tiles) ∧
      l.Pairwise (fun x y => get_score y (some tiles) ≤ get_score x (some tiles)) ∧
      get_suggestions ws tiles n = l.take n := by
  refine ⟨sortedBy (fun x y => decide (get_score y (some tiles) ≤ get_score x (some tiles)))
    (get_possible_words ws tiles), perm_sortedBy _ _, ?_, rfl⟩
  have hp := pairwise_sortedBy
    (r := fun x y => decide (get_score y (some tiles) ≤ get_score x (some tiles)))
    (fun a b => by
      rcases Nat.le_total (get_score b (some tiles)) (get_score a (some tiles)) with h | h
      · exact Or.inl (decide_eq_true h)
      · exact Or.inr (decide_eq_true h))
    (fun a b c hab hbc =>
      decide_eq_true (le_trans (of_decide_eq_true hbc) (of_decide_eq_true hab)))
    (get_possible_words ws tiles)
  exact hp.imp (fun h => of_decide_eq_true h)

/-! ### C4: scoring against available letters -/

theorem count_concatMap_replicate {k : Char → Nat} :
    ∀ {ds : List Char}, ds.Nodup → ∀ c,
      (concatMap (fun d => List.replicate (k d) d) ds).count c = if c ∈ ds then k c else 0 := by
  intro ds
  induction ds with
  | nil => intro _ c; simp [concatMap]
  | cons d ds ih =>
      intro hnd c
      obtain ⟨hd, hnd'⟩ := List.nodup_cons.mp hnd
      simp only [concatMap, List.count_append, ih hnd' c, List.count_replicate]
      by_cases hc : c = d
      · subst hc
        simp [hd]
      · have hbe : (d == c) = false := beq_eq_false_iff_ne.mpr (fun h => hc h.symm)
        simp [hbe, List.mem_cons, hc]

theorem counterAnd_count (w a : Word) (c : Char) :
    (counterAnd w a).count c = min (w.count c) (a.count c) := by
  unfold counterAnd
  rw [count_concatMap_replicate (List.nodup_dedup w) c]
  by_cases hc : c ∈ w.dedup
  · rw [if_pos hc]
  · rw [if_neg hc]
    have : w.count c = 0 := List.count_eq_zero.mpr (fun h => hc (List.mem_dedup.mpr h))
    simp [this]

theorem counterAnd_multiset (w a : Word) :
    (counterAnd w a : Multiset Char) = (w : Multiset Char) ∩ (a : Multiset Char) := by
  refine Multiset.ext.mpr (fun c => ?_)
  rw [Multiset.count_inter]
  simpa using counterAnd_count w a c

/-- C4 (amended): when a non-empty `availableLetters` string is
supplied, `_get_score` sums the letter values of the multiset
intersection of the letters of the word and the available letters; with
no `availableLetters` the score is the plain sum of the letter values
of the word.  (The original claim also covered the empty
available-letters string, but the Python test `if available_letters:` treats it like an absent
argument — see the counterexample.) -/
theorem C4_score_multiset_inter (w a : Word) (hne : a ≠ []) :
    get_score w (some a) = specInterScore w a ∧
    get_score w none = (w.map letterValues).sum := by
  refine ⟨?_, rfl⟩
  show (if a = [] then (w.map letterValues).sum
    else ((counterAnd w a).map letterValues).sum) = specInterScore w a
  rw [if_neg hne]
  unfold specInterScore
  rw [← counterAnd_multiset]
  simp

theorem C4_score_multiset_inter_witness :
    ("a".toList ≠ ([] : Word)) ∧
    (get_score "ab".toList (some "a".toList) = specInterScore "ab".toList "a".toList ∧
      get_score "ab".toList none = ("ab".toList.map letterValues).sum) :=
  ⟨by decide, C4_score_multiset_inter "ab".toList "a".toList (by decide)⟩

/-- C4 (counterexample): with the empty available-letters string
supplied, `_get_score("a", "")` returns the full score 1, whereas the
multiset-intersection reading demanded by the claim gives 0. -/
theorem C4_empty_avail_cex :
    get_score ['a'] (some []) = 1 ∧ specInterScore ['a'] [] = 0 := by
  constructor
  · decide
  · simp [specInterScore]

/-! ### C5: the suggestion score range -/

theorem exists_drop_cons {α : Type} : ∀ (xs : List α) (m : Nat), m < xs.length →
    ∃ y, y ∈ xs ∧ xs.drop m = y :: xs.drop (m + 1) := by
  intro xs
  induction xs with
  | nil => intro m hm; simp at hm
  | cons z zs ih =>
      intro m hm
      match m with
      | 0 => exact ⟨z, List.mem_cons_self z zs, by simp⟩
      | Nat.succ m' =>
          obtain ⟨y, hy, hdec⟩ := ih m' (by simpa using hm)
          exact ⟨y, List.mem_cons_of_mem z hy, by simpa [List.drop_succ_cons] using hdec⟩

theorem sum_take_le_sum_drop :
    ∀ (lv : List Nat), lv.Pairwise (· ≤ ·) → ∀ k, k ≤ lv.length →
      (lv.take k).sum ≤ (lv.drop (lv.length - k)).sum := by
  intro lv
  induction lv with
  | nil => intro _ k _; simp
  | cons x xs ih =>
      intro hp k hk
      obtain ⟨hx, hxs⟩ := List.pairwise_cons.mp hp
      match k with
      | 0 => simp
      | Nat.succ n =>
          by_cases hkl : n + 1 = (x :: xs).length
          · have h1 : (x :: xs).length - (n + 1) = 0 := by omega
            have h2 : (x :: xs).length ≤ n + 1 := by omega
            rw [h1, List.drop_zero, List.take_of_length_le h2]
          · have hn : n + 1 ≤ xs.length := by
              simp only [List.length_cons] at hk hkl
              omega
            have hstep : (x :: xs).length - (n + 1) = (xs.length - (n + 1)) + 1 := by
              simp only [List.length_cons]
              omega
            rw [List.take_succ_cons, hstep, List.drop_succ_cons]
            obtain ⟨y, hy, hdec⟩ := exists_drop_cons xs (xs.length - (n + 1)) (by omega)
            rw [hdec]
            have hmp1 : xs.length - (n + 1) + 1 = xs.length - n := by omega
            rw [hmp1]
            simp only [List.sum_cons]
            exact Nat.add_le_add (hx y hy) (ih hxs n (by omega))

theorem pairwise_suggValues (tiles sugg : Word) :
    ((suggValues tiles sugg).map letterValues).Pairwise (· ≤ ·) := by
  have hp := pairwise_sortedBy
    (r := fun x y => decide (letterValues x ≤ letterValues y))
    (fun a b => by
      rcases Nat.le_total (letterValues a) (letterValues b) with h | h
      · exact Or.inl (decide_eq_true h)
      · exact Or.inr (decide_eq_true h))
    (fun a b c hab hbc =>
      decide_eq_true (le_trans (of_decide_eq_true hab) (of_decide_eq_true hbc)))
    (lettersNeeded tiles sugg)
  rw [List.pairwise_map]
  exact hp.imp (fun h => of_decide_eq_true h)

/-- The heart of the C5 bound: the `values[:k]` slice never sums to more
than the `values[-k:]` slice of the ascending-sorted needed letters. -/
theorem least_le_most (tiles sugg : Word) :
    ((pyTakeI (suggK tiles sugg) (suggValues tiles sugg)).map letterValues).sum ≤
      ((pyDropI (-(suggK tiles sugg)) (suggValues tiles sugg)).map letterValues).sum := by
  set k : Int := suggK tiles sugg with hk
  set values : Word := suggValues tiles sugg with hv
  set lv : List Nat := values.map letterValues with hlv
  have hplv : lv.Pairwise (· ≤ ·) := pairwise_suggValues tiles sugg
  have hlen : lv.length = values.length := List.length_map _ _
  rw [pyTakeI, pyDropI, List.map_take, List.map_drop, ← hlv]
  rcases lt_trichotomy k 0 with hneg | hzero | hpos
  · rw [if_pos hneg, if_neg (by omega)]
    by_cases hm : ((values.length : Int) + k).toNat = 0
    · rw [hm]
      simp
    · have hml : ((values.length : Int) + k).toNat ≤ lv.length := by omega
      have hd : (-k).toNat = lv.length - ((values.length : Int) + k).toNat := by omega
      rw [hd]
      exact sum_take_le_sum_drop lv hplv _ hml
  · rw [hzero]
    simp
  · rw [if_neg (by omega), if_pos (by omega)]
    have hml : k.toNat ≤ lv.length := by
      have hb1 : 1 ≤ tiles.count ' ' ∨ tiles.count ' ' = 0 := by omega
      have hkdef : k = ((lettersNeeded tiles sugg).length : Int) - (tiles.count ' ' : Int) := hk
      have hvlen : values.length = (lettersNeeded tiles sugg).length :=
        (perm_sortedBy _ (lettersNeeded tiles sugg)).length_eq
      omega
    have hd : ((values.length : Int) + -k).toNat = lv.length - k.toNat := by omega
    rw [hd]
    exact sum_take_le_sum_drop lv hplv _ hml

/-- C5 (amended): for every tile input and every suggestion word, the
computed score range satisfies `lowScore ≤ highScore`, and when the
tile input holds no blanks the range collapses to a single value.  (The
converse of the original claim — collapse only without blanks — fails: with
blanks held the two slices can have equal value sums, see the
counterexample.) -/
theorem C5_score_range_bounds (tiles sugg : Word) :
    lowOf (suggScore tiles sugg) ≤ highOf (suggScore tiles sugg) ∧
    (tiles.count ' ' = 0 → lowOf (suggScore tiles sugg) = highOf (suggScore tiles sugg)) := by
  by_cases hb : tiles.count ' ' = 0
  · simp [suggScore, hb, lowOf, highOf]
  · refine ⟨?_, fun h => absurd h hb⟩
    simp only [suggScore, if_neg hb, lowOf, highOf, List.headD_cons, List.getLastD_cons,
      List.getLastD]
    exact sub_le_sub_left (Nat.cast_le.mpr (least_le_most tiles sugg)) _

theorem C5_score_range_bounds_witness :
    (lowOf (suggScore [] "dog".toList) ≤ highOf (suggScore [] "dog".toList)) ∧
    (lowOf (suggScore [] "dog".toList) = highOf (suggScore [] "dog".toList)) :=
  ⟨(C5_score_range_bounds [] "dog".toList).1,
    (C5_score_range_bounds [] "dog".toList).2 (by decide)⟩

/-- C5 (counterexample): with tiles `"z "` (one blank) and dictionary
`{za, at}`, the engine produces the suggestion `at`, whose score range
is `[1, 1]` — `lowScore == highScore` even though a blank is held, so
the claimed "iff" direction fails. -/
theorem C5_range_collapse_with_blank_cex :
    get_alternative_suggestions ["za".toList, "at".toList] "z ".toList 1 =
        .ok ["at".toList] ∧
      suggScore "z ".toList "at".toList = [1, 1] ∧
      "z ".toList.count ' ' = 1 :=
  ⟨by decide, by decide, by decide⟩

/-! ### C6: blank expansion as a union over letters -/

theorem count_blank_stripBlanks (t : Word) : (stripBlanks t).count ' ' = 0 := by
  rw [List.count_eq_zero]
  intro h
  have := (List.mem_filter.mp h).2
  simp at this

theorem mem_sublistsLen_one {ls : Word} :
    ls ∈ List.sublistsLen 1 alphabet ↔ ∃ c, c ∈ alphabet ∧ ls = [c] := by
  rw [List.mem_sublistsLen]
  constructor
  · rintro ⟨hsub, hlen1⟩
    obtain ⟨c, rfl⟩ := List.length_eq_one.mp hlen1
    exact ⟨c, List.singleton_sublist.mp hsub, rfl⟩
  · rintro ⟨c, hc, rfl⟩
    exact ⟨List.singleton_sublist.mpr hc, rfl⟩

/-- C6: for a tile string holding exactly one blank (and otherwise
lowercase letters, length at most 7), `get_possible_words` equals the
union over all 26 letters `c` of `get_possible_words` on the stripped
tiles extended by `c`. -/
theorem C6_blank_union (ws : List Word) (tiles : Word)
    (hb : tiles.count ' ' = 1)
    (hchar : ∀ c ∈ tiles, c = ' ' ∨ ('a' ≤ c ∧ c ≤ 'z'))
    (hlen : tiles.length ≤ 7) :
    ∀ w, w ∈ get_possible_words ws tiles ↔
      ∃ c, c ∈ alphabet ∧ w ∈ get_possible_words ws (stripBlanks tiles ++ [c]) := by
  intro w
  have halpha : ∀ c ∈ alphabet, c ≠ ' ' := by decide
  have hsingle : ∀ c ∈ alphabet, (stripBlanks tiles ++ [c]).count ' ' = 0 := by
    intro c hc
    rw [List.count_append, count_blank_stripBlanks]
    simp [List.count_singleton', halpha c hc]
  have hiw : inputWords tiles =
      (List.sublistsLen 1 alphabet).map (fun ls => stripBlanks tiles ++ ls) := by
    simp [inputWords, hb]
  have hone : ∀ c ∈ alphabet,
      inputWords (stripBlanks tiles ++ [c]) = [stripBlanks tiles ++ [c]] := by
    intro c hc
    simp [inputWords, hsingle c hc]
  constructor
  · intro hw
    rw [get_possible_words, hiw, List.mem_dedup, mem_concatMap] at hw
    obtain ⟨iw, hiwmem, hcand⟩ := hw
    obtain ⟨ls, hls, rfl⟩ := List.mem_map.mp hiwmem
    obtain ⟨c, hc, rfl⟩ := mem_sublistsLen_one.mp hls
    refine ⟨c, hc, ?_⟩
    rw [get_possible_words, hone c hc, List.mem_dedup]
    simpa [concatMap] using hcand
  · rintro ⟨c, hc, hw⟩
    rw [get_possible_words, hone c hc, List.mem_dedup] at hw
    rw [get_possible_words, hiw, List.mem_dedup, mem_concatMap]
    refine ⟨stripBlanks tiles ++ [c], List.mem_map.mpr
      ⟨[c], mem_sublistsLen_one.mpr ⟨c, hc, rfl⟩, rfl⟩, ?_⟩
    simpa [concatMap] using hw

theorem C6_blank_union_witness :
    ((['a', ' '].count ' ' = 1) ∧ (∀ c ∈ ['a', ' '], c = ' ' ∨ ('a' ≤ c ∧ c ≤ 'z')) ∧
      (['a', ' '].length ≤ 7)) ∧
    (∀ w, w ∈ get_possible_words [['a', 'b']] ['a', ' '] ↔
      ∃ c, c ∈ alphabet ∧ w ∈ get_possible_words [['a', 'b']] (stripBlanks ['a', ' '] ++ [c])) :=
  ⟨⟨by decide, by decide, by decide⟩,
    C6_blank_union [['a', 'b']] ['a', ' '] (by decide) (by decide) (by decide)⟩

/-! ### C7: the Remove step of the fuzzy cascade -/

/-- C7 (code bug): with dictionary `{bir}` and input `bird`, deleting
the LAST letter yields the dictionary word `bir`, yet
`_find_words_by_removing` returns nothing: the source iterates
`xrange(len(word) - 1)` and never deletes at the final position (its own
docstring promises `bird -> ird, brd, bir`). -/
theorem C7_remove_skips_last_position :
    find_words_by_removing ["bir".toList] "bird".toList = [] ∧
    "bird".toList.take 3 ++ "bird".toList.drop 4 = "bir".toList ∧
    "bir".toList ∈ ["bir".toList] :=
  ⟨by decide, by decide, by decide⟩

/-! ### C8: the validation boundary -/

/-- C8 (counterexample): the uppercase input `"A"` is neither a
lowercase letter nor the blank marker, so the claim demands rejection —
but the constructor accepts it (it only screens punctuation and
digits). -/
theorem C8_uppercase_accepted_cex :
    initAccepts (.str ['A']) = true ∧ ('A' ≠ ' ' ∧ ¬('a' ≤ 'A' ∧ 'A' ≤ 'z')) :=
  ⟨by decide, by decide⟩

/-- C8 (amended): the engine entry constructor accepts an input if and
only if it is a string of length at most 7 containing no punctuation
character and no digit; every other input (non-string, too long, or
holding punctuation/digits) is rejected before any engine computation.
(Unlike the original claim, characters such as uppercase letters are
accepted.) -/
theorem C8_validation_boundary (v : PyVal) :
    initAccepts v = true ↔
      ∃ w, v = .str w ∧ w.length ≤ 7 ∧ ∀ c ∈ w, c ∉ pyPunctuation ∧ c ∉ pyDigits := by
  cases v with
  | str w =>
      show (!(w.any fun c => decide (c ∈ pyPunctuation) || decide (c ∈ pyDigits)) &&
        decide (w.length ≤ 7)) = true ↔ _
      simp only [Bool.and_eq_true, Bool.not_eq_true', List.any_eq_false, Bool.or_eq_false_iff,
        decide_eq_false_iff_not, decide_eq_true_eq, PyVal.str.injEq]
      constructor
      · rintro ⟨hchars, hlen⟩
        exact ⟨w, rfl, hlen, fun c hc => by simpa [not_or] using hchars c hc⟩
      · rintro ⟨w', rfl, hlen, hchars⟩
        exact ⟨fun c hc => by simpa [not_or] using hchars c hc, hlen⟩
  | int n => simp [initAccepts]
  | list l => simp [initAccepts]
  | noneV => simp [initAccepts]
  | boolV b => simp [initAccepts]

/-! ### C10: `WordSet.__getitem__` on non-string keys -/

/-- C10: for every built-in non-string key, `WordSet.__getitem__`
returns `False` instead of raising: the `AttributeError` from
`x.lower()` is caught and converted to a `False` membership result, so
the lookup is total. -/
theorem C10_getitem_nonstring_false (ws : List Word) (v : PyVal)
    (h : ∀ w, v ≠ .str w) :
    wordsetGetitem ws v = false := by
  cases v with
  | str w => exact absurd rfl (h w)
  | int n => rfl
  | list l => rfl
  | noneV => rfl
  | boolV b => rfl

theorem C10_getitem_nonstring_false_witness :
    (∀ w, PyVal.int 5 ≠ .str w) ∧ wordsetGetitem ["dog".toList] (PyVal.int 5) = false :=
  ⟨fun _ h => PyVal.noConfusion h,
    C10_getitem_nonstring_false ["dog".toList] (.int 5) (fun _ h => PyVal.noConfusion h)⟩

/-! ### C2: the pooled-alternatives truncation -/

theorem poolBudget_eq_take (ws : List Word) :
    ∀ (possible : List Word) (budget : Nat),
      (∀ w ∈ possible, get_alternative_words ws w none ≠ none) →
      poolBudget ws budget possible =
        .ok ((concatMap (fun w => (get_alternative_words ws w none).getD []) possible).take
          budget) := by
  intro possible
  induction possible with
  | nil => intro budget _; simp [poolBudget, concatMap]
  | cons w rest ih =>
      intro budget hno
      by_cases hbz : budget = 0
      · subst hbz
        simp [poolBudget]
      · obtain ⟨alts, halts⟩ : ∃ l, get_alternative_words ws w none = some l := by
          cases h : get_alternative_words ws w none with
          | none => exact absurd h (hno w (List.mem_cons_self w rest))
          | some l => exact ⟨l, rfl⟩
        simp only [poolBudget, if_neg hbz, halts, concatMap, Option.getD_some]
        by_cases hlen : budget ≤ alts.length
        · rw [if_pos hlen, List.take_append_eq_append_take]
          have hz : budget - alts.length = 0 := by omega
          rw [hz, List.take_zero, List.append_nil]
        · rw [if_neg hlen,
            ih (budget - alts.length) (fun w' hw' => hno w' (List.mem_cons_of_mem _ hw'))]
          have htb : alts.take budget = alts := List.take_of_length_le (by omega)
          rw [List.take_append_eq_append_take, htb]

/-- C2 (amended): `get_alternative_suggestions` pools the alternatives
of the makeable words only up to the first `2*n` pooled entries (the
`limiter`), filters THOSE for validity (not makeable, length in
`[2,7]`), sorts them by descending high score, and returns the first
`n`.  Qualifying alternatives beyond the `2*n`-entry truncation are
never considered (see the counterexample).  The theorem assumes every
makeable word has at least one alternative; otherwise the call raises
(see C9). -/
theorem C2_pool_truncated_sort (ws : List Word) (tiles : Word) (n : Nat)
    (hno : ∀ w ∈ get_possible_words ws tiles, get_alternative_words ws w none ≠ none) :
    get_alternative_suggestions ws tiles n =
      .ok ((sortedBy (bySuggestionScore tiles)
        (((concatMap (fun w => (get_alternative_words ws w none).getD [])
            (get_possible_words ws tiles)).take (2 * n)).filter
          (suggestionValid (get_possible_words ws tiles)))).take n) := by
  simp only [get_alternative_suggestions,
    poolBudget_eq_take ws (get_possible_words ws tiles) (2 * n) hno]

theorem C2_pool_truncated_sort_witness :
    (∀ w ∈ get_possible_words
        ["abc".toList, "bac".toList, "acb".toList, "cab".toList, "abcd".toList] "abc".toList,
      get_alternative_words
        ["abc".toList, "bac".toList, "acb".toList, "cab".toList, "abcd".toList] w none ≠
          none) ∧
    get_alternative_suggestions
        ["abc".toList, "bac".toList, "acb".toList, "cab".toList, "abcd".toList]
        "abc".toList 1 =
      .ok ((sortedBy (bySuggestionScore "abc".toList)
        (((concatMap (fun w => (get_alternative_words
              ["abc".toList, "bac".toList, "acb".toList, "cab".toList, "abcd".toList] w
                none).getD [])
            (get_possible_words
              ["abc".toList, "bac".toList, "acb".toList, "cab".toList, "abcd".toList]
              "abc".toList)).take (2 * 1)).filter
          (suggestionValid (get_possible_words
            ["abc".toList, "bac".toList, "acb".toList, "cab".toList, "abcd".toList]
            "abc".toList)))).take 1) :=
  ⟨by decide,
    C2_pool_truncated_sort
      ["abc".toList, "bac".toList, "acb".toList, "cab".toList, "abcd".toList]
      "abc".toList 1 (by decide)⟩

/-- C2 (counterexample): with dictionary `{abc, bac, acb, cab, abcd}`
and tiles `"abc"` (`n = 1`), the first `2*n = 2` pooled alternatives of
every makeable word are themselves makeable, so the code returns no
suggestion at all — while the claim reading (filter and sort ALL
pooled alternatives) yields `abcd`.  The outcome is the same under any
iteration order of the possible-word set. -/
theorem C2_limiter_truncation_cex :
    get_alternative_suggestions
        ["abc".toList, "bac".toList, "acb".toList, "cab".toList, "abcd".toList]
        "abc".toList 1 = .ok [] ∧
      claimSuggest
        ["abc".toList, "bac".toList, "acb".toList, "cab".toList, "abcd".toList]
        "abc".toList 1 = ["abcd".toList] :=
  ⟨by decide, by decide⟩

/-! ### C9: no-result outcomes -/

/-- C9 (counterexample): with the one-word dictionary `{ab}` and tiles
`"ab"`, the whole cascade (fallback included) finds nothing for the
makeable word `ab`; `get_alternative_words` then returns `None` — not
an empty collection — and `get_alternative_suggestions` raises
`TypeError` while iterating over it. -/
theorem C9_none_and_typeerror_cex :
    get_alternative_words ["ab".toList] "ab".toList none = none ∧
    get_alternative_suggestions ["ab".toList] "ab".toList 1 = .error .typeError :=
  ⟨by decide, by decide⟩

/-- C9 (amended): an empty makeable set does propagate as an empty
suggestion sequence, but an exhausted fuzzy cascade is signalled as an
absent result (`None`), never as an empty collection — and
`get_alternative_suggestions` consequently raises `TypeError` when it
reaches a makeable word with no alternatives (counterexample above). -/
theorem C9_empty_outcomes :
    (∀ (ws : List Word) (w : Word) (k : Option Nat),
      get_alternative_words ws w k ≠ some []) ∧
    (∀ (ws : List Word) (tiles : Word) (n : Nat),
      get_possible_words ws tiles = [] →
        get_alternative_suggestions ws tiles n = .ok []) := by
  constructor
  · intro ws w k
    cases h : accumAlts w (altCap ws k) [] (cascadeCandidates ws w) with
    | nil => simp [get_alternative_words, h]
    | cons a l => simp [get_alternative_words, h]
  · intro ws tiles n h
    simp [get_alternative_suggestions, h, poolBudget, sortedBy]

theorem C9_empty_outcomes_witness :
    get_possible_words [] ['a', 'b'] = [] ∧
    get_alternative_suggestions [] ['a', 'b'] 1 = .ok [] :=
  ⟨by decide, C9_empty_outcomes.2 [] ['a', 'b'] 1 (by decide)⟩

/-- The score examples of the specification: `score("zebra") == 16`
and, against the tile rack `"ze ra"`, `score("zebra", tiles) == 13`. -/
theorem score_zebra_examples :
    get_score "zebra".toList none = 16 ∧
    get_score "zebra".toList (some "ze ra".toList) = 13 := ⟨by decide, by decide⟩

end Scrabble
